import Mathlib

/-!
A shallow embedding of two components of the Trilinos repository:
the Panzer degree-of-freedom manager (`panzer::DOFManager`, from
`packages/panzer/src/dofmngr/Panzer_DOFManager.hpp`) and the EpetraExt
approximate-minimum-degree graph reorderer (`EpetraExt::CrsGraph_AMD`, from
`packages/epetraext/src/transform/EpetraExt_AMD_CrsGraph.h`).

Both repository files are C++ headers.  The few member functions with inline
bodies (`getFieldString`, both `getGIDFieldOffsets` overloads) are embedded
directly from their source text.  The remaining member functions and the AMD
transform have no implementation in the repository sources available here;
those are modelled from the specification, each such definition carrying a
doc comment that starts with `Modelled from the spec:`.

C++ `std::map` containers are embedded as association lists with an explicit
`mapFind`; a failed `find` followed by an iterator dereference (which the C++
source performs without a not-found branch in `getFieldString` and in the
two-argument `getGIDFieldOffsets`) is made visible as an explicit
"past-the-end dereference" outcome rather than silently producing a value.
-/

/-- Association-list embedding of `std::map::find`: the first binding of the
key, if any.  `none` plays the role of the past-the-end iterator. -/
def mapFind {α β : Type} [DecidableEq α] : List (α × β) → α → Option β
  | [], _ => none
  | (a, b) :: t, k => if a = k then some b else mapFind t k

/-- Association-list embedding of `std::map` insertion-or-assignment: replace
the binding of the key if present, otherwise append a fresh binding. -/
def mapInsert {α β : Type} [DecidableEq α] : List (α × β) → α → β → List (α × β)
  | [], k, v => [(k, v)]
  | (a, b) :: t, k, v => if a = k then (k, v) :: t else (a, b) :: mapInsert t k v

theorem mapFind_eq_none_of_not_mem {α β : Type} [DecidableEq α]
    (l : List (α × β)) (k : α) (h : k ∉ l.map Prod.fst) : mapFind l k = none := by
  induction l with
  | nil => rfl
  | cons p t ih =>
    simp only [List.map_cons, List.mem_cons] at h
    push_neg at h
    simp only [mapFind]
    rw [if_neg (fun he => h.1 he.symm)]
    exact ih h.2

theorem mem_of_mapFind_eq_some {α β : Type} [DecidableEq α]
    {l : List (α × β)} {k : α} {v : β} (h : mapFind l k = some v) : (k, v) ∈ l := by
  induction l with
  | nil => simp [mapFind] at h
  | cons p t ih =>
    obtain ⟨a, b⟩ := p
    simp only [mapFind] at h
    by_cases hak : a = k
    · rw [if_pos hak] at h
      subst hak
      simp only [Option.some.injEq] at h
      subst h
      exact List.mem_cons_self _ _
    · rw [if_neg hak] at h
      exact List.mem_cons_of_mem _ (ih h)

theorem mapFind_eq_some_of_mem {α β : Type} [DecidableEq α]
    {l : List (α × β)} {k : α} {v : β}
    (hnd : (l.map Prod.fst).Nodup) (h : (k, v) ∈ l) : mapFind l k = some v := by
  induction l with
  | nil => simp at h
  | cons p t ih =>
    obtain ⟨a, b⟩ := p
    simp only [List.map_cons, List.nodup_cons] at hnd
    rcases List.mem_cons.mp h with heq | hmem
    · cases heq
      simp [mapFind]
    · have hak : a ≠ k := by
        rintro rfl
        exact hnd.1 (List.mem_map.mpr ⟨(a, v), hmem, rfl⟩)
      simp only [mapFind, if_neg hak]
      exact ih hnd.2 hmem

theorem mapFind_ne_none_of_mem {α β : Type} [DecidableEq α]
    {l : List (α × β)} {k : α} (h : k ∈ l.map Prod.fst) : mapFind l k ≠ none := by
  induction l with
  | nil => simp at h
  | cons p t ih =>
    obtain ⟨a, b⟩ := p
    simp only [List.map_cons, List.mem_cons] at h
    simp only [mapFind]
    by_cases hak : a = k
    · rw [if_pos hak]; exact fun hc => Option.noConfusion hc
    · rw [if_neg hak]
      exact ih (h.resolve_left (fun he => hak he.symm))

theorem mapFind_mapInsert_self {α β : Type} [DecidableEq α]
    (l : List (α × β)) (k : α) (v : β) : mapFind (mapInsert l k v) k = some v := by
  induction l with
  | nil => simp [mapInsert, mapFind]
  | cons p t ih =>
    obtain ⟨a, b⟩ := p
    simp only [mapInsert]
    by_cases hak : a = k
    · rw [if_pos hak]; simp [mapFind]
    · rw [if_neg hak]
      simp only [mapFind, if_neg hak]
      exact ih

/-! ## The DOF manager data model

From `Panzer_DOFManager.hpp`.  The member data (lines 246-283 of the header)
is embedded field by field; the FEI objects, Epetra maps/graphs and the
communicator — all externally owned collaborator state computed by
`buildGlobalUnknowns` — are collapsed into one `built : Option BuiltState`
component, `none` meaning "no global numbering has been computed".  -/

/-- Modelled from the spec: a `FieldPattern` (an external collaborator whose
definition is not in the repository sources) reports how many scalar unknowns
attach to a sub-entity; it is reduced here to that per-sub-entity count. -/
structure FieldPattern where
  dofsPerSubEntity : Nat
deriving DecidableEq

/-- Modelled from the spec: a `ConnManager<int,int>` (external collaborator,
not in the repository sources) maps each local element to its element block
and the ordered global IDs of its geometric sub-entities. -/
structure ConnManager where
  elements : List (Int × List Int)
deriving DecidableEq

/-- The aggregate field pattern of one element block: for each field
registered on the block (in registration order), the fixed local offsets of
that field's unknowns inside the element's full local DOF list. -/
structure FieldAggPattern where
  fieldOffsets : List (Int × List Int)
deriving DecidableEq

/-- Modelled from the spec: `FieldAggPattern::localOffsets(fieldNum)` (the
collaborator called by the inline body of the two-argument
`getGIDFieldOffsets`, header line 179) returns the fixed local-offset list of
one field within the aggregate pattern. -/
def FieldAggPattern.localOffsets (p : FieldAggPattern) (fieldNum : Int) : List Int :=
  match mapFind p.fieldOffsets fieldNum with
  | some l => l
  | none => []

/-- The state computed by `buildGlobalUnknowns` (owned/overlap maps, graphs,
and the per-element global ID lists); discarded wholesale on a reset. -/
structure BuiltState where
  elementGIDs : List (List Int)
  ownedMap : List Int
  overlapMap : List Int
  ownedGraph : List (Int × Int)
deriving DecidableEq

/-- The `panzer::DOFManager` member data (header lines 246-283). -/
structure DOFManager where
  /-- `fieldStrToInt_` : field string ==> field id (header line 251). -/
  fieldStrToInt : List (String × Int)
  /-- `intToFieldStr_` : field id ==> field string (header line 252). -/
  intToFieldStr : List (Int × String)
  /-- `fieldIntToPattern_` : (block index × field id) ==> pattern (line 255). -/
  fieldIntToPattern : List ((Int × Int) × FieldPattern)
  /-- `blockToField_` : block index ==> set of field ids (line 261). -/
  blockToField : List (Int × List Int)
  /-- `fieldAggPattern_` : block index ==> aggregate field pattern (line 258). -/
  fieldAggPattern : List (Int × FieldAggPattern)
  /-- `numFields_` counter (line 282). -/
  numFields : Int
  /-- `connMngr_` (line 246); `none` embeds a null RCP. -/
  connMngr : Option ConnManager
  /-- The maps/graphs/FEI state produced by `buildGlobalUnknowns`. -/
  built : Option BuiltState
deriving DecidableEq

/-- The default-constructed `DOFManager()`: nothing registered, nothing built. -/
def initDOFManager : DOFManager :=
  { fieldStrToInt := [], intToFieldStr := [], fieldIntToPattern := [],
    blockToField := [], fieldAggPattern := [], numFields := 0,
    connMngr := none, built := none }

/-- The registered field names: the key set of `fieldStrToInt_`. -/
def DOFManager.fieldNames (dm : DOFManager) : List String :=
  dm.fieldStrToInt.map Prod.fst

/-- The registered field numbers: the key set of `intToFieldStr_`. -/
def DOFManager.fieldNums (dm : DOFManager) : List Int :=
  dm.intToFieldStr.map Prod.fst

/-- Modelled from the spec: `getFieldNum(str)` (declared at header line 124;
its body is not in the repository sources, but the header's doc comment fixes
the contract: "A unique integer associated with the field if the field
exisits. Otherwise a -1 is returned."). -/
def DOFManager.getFieldNum (dm : DOFManager) (str : String) : Int :=
  match mapFind dm.fieldStrToInt str with
  | some n => n
  | none => -1

/-- `getFieldString(num)`, embedded from its inline body (header line 136):
`return intToFieldStr_.find(num)->second;`.  The body dereferences the
iterator returned by `find` with no not-found branch, so a missing key is the
dereference of a past-the-end iterator; that undefined outcome is embedded as
`none`. -/
def DOFManager.getFieldString (dm : DOFManager) (num : Int) : Option String :=
  mapFind dm.intToFieldStr num

/-- Insert a field id into one block's field-id set, embedding
`blockToField_[blockId].insert(fieldId)`: no duplicate ids, fresh blocks get
a fresh singleton set. -/
def addToBlock (m : List (Int × List Int)) (blockId : Int) (fid : Int) :
    List (Int × List Int) :=
  match mapFind m blockId with
  | some l => if fid ∈ l then m else mapInsert m blockId (l ++ [fid])
  | none => m ++ [(blockId, [fid])]

/-- Modelled from the spec: `addField(blockId, str, pattern)` (declared at
header line 77, body not in the repository sources).  Per the spec, the first
occurrence of a new name is assigned the next unused integer id (ids start at
0 and follow registration order); a repeated name leaves the name/number
mapping untouched; in both cases the pattern is recorded for `(blockId, id)`
and the id is added to the block's field set. -/
def DOFManager.addField (dm : DOFManager) (blockId : Int) (str : String)
    (pattern : FieldPattern) : DOFManager :=
  match mapFind dm.fieldStrToInt str with
  | some fid =>
    { dm with
      fieldIntToPattern := mapInsert dm.fieldIntToPattern (blockId, fid) pattern,
      blockToField := addToBlock dm.blockToField blockId fid }
  | none =>
    let fid := dm.numFields
    { dm with
      fieldStrToInt := dm.fieldStrToInt ++ [(str, fid)],
      intToFieldStr := dm.intToFieldStr ++ [(fid, str)],
      numFields := dm.numFields + 1,
      fieldIntToPattern := mapInsert dm.fieldIntToPattern (blockId, fid) pattern,
      blockToField := addToBlock dm.blockToField blockId fid }

/-- Modelled from the spec: `setConnManager(connMngr, mpiComm)` (declared at
header line 54, body not in the repository sources).  Per the header doc
comment it binds the new connection manager and "the behavior is to reset
the indices in the DOF manager.  However, the fields will be the same". -/
def DOFManager.setConnManager (dm : DOFManager) (c : ConnManager) : DOFManager :=
  { dm with connMngr := some c, fieldAggPattern := [], built := none }

/-- Modelled from the spec: `resetIndices()` (declared at header line 64, body
not in the repository sources).  Per the header doc comment it "resets the
indices and wipes out internal state", preserves the fields and patterns, and
returns the old connection manager, relinquishing the binding. -/
def DOFManager.resetIndices (dm : DOFManager) : DOFManager × Option ConnManager :=
  ({ dm with connMngr := none, fieldAggPattern := [], built := none }, dm.connMngr)

/-! ## buildGlobalUnknowns

`buildGlobalUnknowns()` (header line 158) has no body in the repository
sources; its three phases are modelled from the spec for a single partition:
pattern phase (aggregate patterns with fixed offsets per block), connectivity
phase (expand each element's sub-entities into DOF slots), completion phase
(assign each distinct (sub-entity GID, field, component) triple one global
index, in first-claim order). -/

/-- The fields registered on one block, in registration order. -/
def fieldsOnBlock (dm : DOFManager) (b : Int) : List Int :=
  match mapFind dm.blockToField b with
  | some l => l
  | none => []

/-- The number of scalar unknowns one field attaches to each sub-entity of
one block, read from the registered pattern (0 if none was registered). -/
def dofCount (dm : DOFManager) (b f : Int) : Nat :=
  match mapFind dm.fieldIntToPattern (b, f) with
  | some p => p.dofsPerSubEntity
  | none => 0

/-- The per-element DOF slot layout of one block with `s` sub-entities: for
each sub-entity position, for each field in registration order, one slot per
scalar component.  A slot is (sub-entity position, field id, component). -/
def slotLayout (dm : DOFManager) (b : Int) (s : Nat) : List (Nat × Int × Nat) :=
  (List.range s).flatMap fun k =>
    (fieldsOnBlock dm b).flatMap fun f =>
      (List.range (dofCount dm b f)).map fun c => (k, f, c)

/-- The positions of one field's slots inside a slot layout: the fixed local
offsets of that field. -/
def offsetsOf (slots : List (Nat × Int × Nat)) (f : Int) : List Int :=
  ((slots.enum).filter fun p => p.2.2.1 = f).map fun p => (p.1 : Int)

/-- The number of sub-entities of one block's elements, read from the first
element of the block in the connection manager. -/
def subEntityCount (cm : ConnManager) (b : Int) : Nat :=
  match cm.elements.find? (fun e => e.1 = b) with
  | some e => e.2.length
  | none => 0

/-- Pattern phase: the aggregate pattern of one block. -/
def aggPatternFor (dm : DOFManager) (cm : ConnManager) (b : Int) : FieldAggPattern :=
  { fieldOffsets :=
      (fieldsOnBlock dm b).map fun f =>
        (f, offsetsOf (slotLayout dm b (subEntityCount cm b)) f) }

/-- Pattern phase over all blocks that have registered fields. -/
def buildAggPatterns (dm : DOFManager) (cm : ConnManager) :
    List (Int × FieldAggPattern) :=
  (dm.blockToField.map Prod.fst).map fun b => (b, aggPatternFor dm cm b)

/-- Connectivity phase: the DOF slots of one element, each slot identified by
the (sub-entity global ID, field id, component) triple it instantiates. -/
def elementSlots (dm : DOFManager) (e : Int × List Int) : List (Int × Int × Nat) :=
  e.2.flatMap fun g =>
    (fieldsOnBlock dm e.1).flatMap fun f =>
      (List.range (dofCount dm e.1 f)).map fun c => (g, f, c)

/-- First-occurrence deduplication, keeping first-claim order. -/
def firstDedup {α : Type} [DecidableEq α] : List α → List α
  | [] => []
  | a :: t => a :: firstDedup (t.filter fun x => !(x = a : Bool))
termination_by l => l.length
decreasing_by
  simp only [List.length_cons]
  exact Nat.lt_succ_of_le (List.length_filter_le _ _)

/-- Completion phase: the distinct DOF triples over all local elements, in
first-claim order; the global index of a triple is its position here. -/
def globalTriples (dm : DOFManager) (cm : ConnManager) : List (Int × Int × Nat) :=
  firstDedup (cm.elements.flatMap (elementSlots dm))

/-- The cliques an element's GID list contributes to the DOF graph. -/
def graphOf (gidss : List (List Int)) : List (Int × Int) :=
  gidss.flatMap fun l => l.flatMap fun a => l.map fun b => (a, b)

/-- The complete computed state: per-element GID lists (one global index per
slot), the owned map, the overlap map (equal to the owned map on a single
partition) and the owned graph. -/
def computeBuilt (dm : DOFManager) (cm : ConnManager) : BuiltState :=
  let uniq := globalTriples dm cm
  let gids := cm.elements.map fun e =>
    (elementSlots dm e).map fun t => (uniq.indexOf t : Int)
  { elementGIDs := gids,
    ownedMap := (List.range uniq.length).map Int.ofNat,
    overlapMap := (List.range uniq.length).map Int.ofNat,
    ownedGraph := graphOf gids }

/-- Modelled from the spec: `buildGlobalUnknowns()` (header line 158, body not
in the repository sources): builds the aggregate patterns and the computed
numbering state from the bound connection manager and the registered fields;
with no connection manager bound the spec says the call aborts, so no state
is produced. -/
def DOFManager.buildGlobalUnknowns (dm : DOFManager) : DOFManager :=
  match dm.connMngr with
  | none => dm
  | some cm =>
    { dm with
      fieldAggPattern := buildAggPatterns dm cm,
      built := some (computeBuilt dm cm) }

/-- Modelled from the spec: `getElementGIDs(localElmtId, gids)` (header line
173, body not in the repository sources) returns the element's ordered global
DOF indices; undefined before `buildGlobalUnknowns` or out of range. -/
def DOFManager.getElementGIDs (dm : DOFManager) (localElmtId : Nat) : Option (List Int) :=
  match dm.built with
  | none => none
  | some b => b.elementGIDs.get? localElmtId

/-! ## The inline offset accessors

These two member functions have their bodies in the header and are embedded
from that source text. -/

/-- The possible outcomes of the inline offset accessors: a returned offset
list, a `TEUCHOS_ASSERT` failure (a reported, fatal condition), or the
dereference of a past-the-end iterator (undefined behavior, not reported). -/
inductive OffsetsResult where
  | ok : List Int → OffsetsResult
  | assertFail : OffsetsResult
  | endDeref : OffsetsResult
deriving DecidableEq

/-- Whether an `OffsetsResult` is a returned offset list. -/
def OffsetsResult.isOk : OffsetsResult → Bool
  | .ok _ => true
  | _ => false

/-- `getGIDFieldOffsets(blockId, fieldNum)`, embedded from its inline body
(header line 179):
`return fieldAggPattern_.find(blockId)->second->localOffsets(fieldNum);`.
The iterator returned by `find` is dereferenced with no not-found branch, so
a block without an aggregate pattern yields a past-the-end dereference. -/
def DOFManager.getGIDFieldOffsets (dm : DOFManager) (blockId fieldNum : Int) :
    OffsetsResult :=
  match mapFind dm.fieldAggPattern blockId with
  | some p => .ok (p.localOffsets fieldNum)
  | none => .endDeref

/-- The four-argument `getGIDFieldOffsets(blockId, fieldNum, subCellDim,
subCellId)`, embedded from its inline body (header line 192):
`{ TEUCHOS_ASSERT(false); }` — the sub-cell narrowing is left unimplemented
and the body unconditionally fails the assertion. -/
def DOFManager.getGIDFieldOffsetsSubcell (_dm : DOFManager)
    (_blockId _fieldNum _subCellDim _subCellId : Int) : OffsetsResult :=
  .assertFail

/-! ## Reachable manager states and the field-mapping invariant -/

/-- The manager states reachable through the public mutating interface. -/
inductive Reachable : DOFManager → Prop where
  | init : Reachable initDOFManager
  | addField (b : Int) (s : String) (p : FieldPattern) {dm : DOFManager} :
      Reachable dm → Reachable (dm.addField b s p)
  | setConnManager (c : ConnManager) {dm : DOFManager} :
      Reachable dm → Reachable (dm.setConnManager c)
  | resetIndices {dm : DOFManager} : Reachable dm → Reachable dm.resetIndices.1
  | buildGlobalUnknowns {dm : DOFManager} :
      Reachable dm → Reachable dm.buildGlobalUnknowns

/-- The structural invariant of the field registry: the reverse map mirrors
the forward map, ids are `0, 1, …` in registration order, `numFields_` is the
registration count, and names are never registered twice. -/
def DOFInv (dm : DOFManager) : Prop :=
  dm.intToFieldStr = dm.fieldStrToInt.map (fun p => (p.2, p.1)) ∧
  dm.fieldStrToInt.map Prod.snd
    = (List.range dm.fieldStrToInt.length).map Int.ofNat ∧
  dm.numFields = (dm.fieldStrToInt.length : Int) ∧
  (dm.fieldStrToInt.map Prod.fst).Nodup

theorem dOFInv_init : DOFInv initDOFManager :=
  ⟨rfl, rfl, rfl, List.nodup_nil⟩

theorem dOFInv_addField {dm : DOFManager} (b : Int) (s : String) (p : FieldPattern)
    (h : DOFInv dm) : DOFInv (dm.addField b s p) := by
  obtain ⟨h1, h2, h3, h4⟩ := h
  unfold DOFManager.addField
  cases hf : mapFind dm.fieldStrToInt s with
  | some fid => exact ⟨h1, h2, h3, h4⟩
  | none =>
    refine ⟨?_, ?_, ?_, ?_⟩
    · simp only [List.map_append, List.map_cons, List.map_nil, h1]
    · simp only [List.map_append, List.length_append, List.map_cons, List.map_nil,
        List.length_cons, List.length_nil, h2, h3, List.range_succ]
      simp [Int.ofNat_eq_coe]
    · simp only [List.length_append, List.length_cons, List.length_nil, h3]
      push_cast
      ring
    · simp only [List.map_append, List.map_cons, List.map_nil]
      have hs : s ∉ dm.fieldStrToInt.map Prod.fst := by
        intro hmem
        exact mapFind_ne_none_of_mem hmem hf
      rw [List.nodup_append_comm]
      exact List.nodup_cons.mpr ⟨hs, h4⟩

theorem dOFInv_preserved {dm : DOFManager} (h : Reachable dm) : DOFInv dm := by
  induction h with
  | init => exact dOFInv_init
  | addField b s p _ ih => exact dOFInv_addField b s p ih
  | setConnManager c _ ih => exact ih
  | resetIndices _ ih => exact ih
  | buildGlobalUnknowns _ ih =>
    obtain ⟨h1, h2, h3, h4⟩ := ih
    unfold DOFManager.buildGlobalUnknowns
    cases hcm : ‹DOFManager›.connMngr with
    | none => exact ⟨h1, h2, h3, h4⟩
    | some cm => exact ⟨h1, h2, h3, h4⟩

/-- The registered field numbers carry no duplicates: they are `0, 1, …`. -/
theorem fieldNums_nodup {dm : DOFManager} (h : DOFInv dm) :
    (dm.fieldStrToInt.map Prod.snd).Nodup := by
  rw [h.2.1]
  exact List.Nodup.map (fun a b hab => Int.ofNat.inj hab) (List.nodup_range _)

theorem reverse_map_fst {dm : DOFManager} (h : DOFInv dm) :
    dm.intToFieldStr.map Prod.fst = dm.fieldStrToInt.map Prod.snd := by
  rw [h.1, List.map_map]
  rfl

/-- Forward lookup from a registered pair. -/
theorem mapFind_forward {dm : DOFManager} (h : DOFInv dm) {s : String} {n : Int}
    (hmem : (s, n) ∈ dm.fieldStrToInt) : mapFind dm.fieldStrToInt s = some n :=
  mapFind_eq_some_of_mem h.2.2.2 hmem

/-- Reverse lookup from a registered pair. -/
theorem mapFind_reverse {dm : DOFManager} (h : DOFInv dm) {s : String} {n : Int}
    (hmem : (s, n) ∈ dm.fieldStrToInt) : mapFind dm.intToFieldStr n = some s := by
  have hnd : (dm.intToFieldStr.map Prod.fst).Nodup := by
    rw [reverse_map_fst h]
    exact fieldNums_nodup h
  have hmem2 : (n, s) ∈ dm.intToFieldStr := by
    rw [h.1]
    exact List.mem_map.mpr ⟨(s, n), hmem, rfl⟩
  exact mapFind_eq_some_of_mem hnd hmem2

theorem mapFind_append_right {α β : Type} [DecidableEq α] {l1 : List (α × β)}
    (l2 : List (α × β)) {k : α} (h : mapFind l1 k = none) :
    mapFind (l1 ++ l2) k = mapFind l2 k := by
  induction l1 with
  | nil => rfl
  | cons p t ih =>
    obtain ⟨a, b⟩ := p
    simp only [mapFind, List.cons_append] at h ⊢
    by_cases hak : a = k
    · rw [if_pos hak] at h; exact absurd h (by simp)
    · rw [if_neg hak] at h ⊢
      exact ih h

theorem addToBlock_self_mem (m : List (Int × List Int)) (bk fid : Int) :
    ∃ l, mapFind (addToBlock m bk fid) bk = some l ∧ fid ∈ l := by
  cases hm : mapFind m bk with
  | some l =>
    by_cases hf : fid ∈ l
    · exact ⟨l, by simp [addToBlock, hm, hf], hf⟩
    · exact ⟨l ++ [fid], by simp [addToBlock, hm, hf, mapFind_mapInsert_self], by simp⟩
  | none =>
    refine ⟨[fid], ?_, by simp⟩
    simp only [addToBlock, hm]
    rw [mapFind_append_right _ hm]
    simp [mapFind]

/-- A concrete manager used by the witnesses: two fields registered on
block 0. -/
def dmW : DOFManager :=
  (initDOFManager.addField 0 "u" ⟨1⟩).addField 0 "p" ⟨1⟩

/-- `dmW` is reachable. -/
def dmW_reachable : Reachable dmW :=
  Reachable.addField 0 "p" ⟨1⟩ (Reachable.addField 0 "u" ⟨1⟩ Reachable.init)

/-- C2: over every reachable manager state, the registered field
name/number mapping is bijective: `getFieldNum` inverts `getFieldString` on
every registered field number, and `getFieldString` inverts `getFieldNum` on
every registered field name. -/
theorem c2_field_name_number_bijective (dm : DOFManager) (h : Reachable dm) :
    (∀ n s, dm.getFieldString n = some s → dm.getFieldNum s = n) ∧
    (∀ s, s ∈ dm.fieldNames → dm.getFieldString (dm.getFieldNum s) = some s) := by
  have hinv := dOFInv_preserved h
  constructor
  · intro n s hs
    have hs' : mapFind dm.intToFieldStr n = some s := hs
    have hmem : (n, s) ∈ dm.intToFieldStr := mem_of_mapFind_eq_some hs'
    rw [hinv.1] at hmem
    obtain ⟨⟨ps, pn⟩, hp, heq⟩ := List.mem_map.mp hmem
    simp only [Prod.mk.injEq] at heq
    obtain ⟨rfl, rfl⟩ := heq
    show (match mapFind dm.fieldStrToInt ps with
          | some n => n | none => -1) = pn
    rw [mapFind_forward hinv hp]
  · intro s hsmem
    obtain ⟨⟨ps, pn⟩, hp, heq⟩ := List.mem_map.mp hsmem
    simp only at heq
    subst heq
    show mapFind dm.intToFieldStr (dm.getFieldNum ps) = some ps
    have hf : dm.getFieldNum ps = pn := by
      show (match mapFind dm.fieldStrToInt ps with
            | some n => n | none => -1) = pn
      rw [mapFind_forward hinv hp]
    rw [hf]
    exact mapFind_reverse hinv hp

/-- C2 witness: the round trips evaluated on a concrete reachable state. -/
theorem c2_field_name_number_bijective_witness :
    dmW.getFieldNum "u" = 0 ∧
    dmW.getFieldString (dmW.getFieldNum "p") = some "p" := by
  have h2 := (c2_field_name_number_bijective dmW dmW_reachable).2 "p" (by decide)
  have h1 := (c2_field_name_number_bijective dmW dmW_reachable).1 0 "u" (by decide)
  exact ⟨h1, h2⟩

/-- C3: over every reachable manager state, `getFieldNum` returns the
sentinel `-1` for every unregistered name (no error, no abort), and on
registered names its values are the fields' unique integers: distinct
registered names never share a field number. -/
theorem c3_getFieldNum_sentinel (dm : DOFManager) (h : Reachable dm) :
    (∀ s, s ∉ dm.fieldNames → dm.getFieldNum s = -1) ∧
    (∀ s1 s2, s1 ∈ dm.fieldNames → s2 ∈ dm.fieldNames →
      dm.getFieldNum s1 = dm.getFieldNum s2 → s1 = s2) := by
  have hinv := dOFInv_preserved h
  constructor
  · intro s hs
    show (match mapFind dm.fieldStrToInt s with
          | some n => n | none => -1) = -1
    rw [mapFind_eq_none_of_not_mem _ _ hs]
  · intro s1 s2 h1 h2 heq
    obtain ⟨⟨a1, n1⟩, hp1, he1⟩ := List.mem_map.mp h1
    obtain ⟨⟨a2, n2⟩, hp2, he2⟩ := List.mem_map.mp h2
    simp only at he1 he2
    subst he1; subst he2
    have hf1 : dm.getFieldNum a1 = n1 := by
      show (match mapFind dm.fieldStrToInt a1 with
            | some n => n | none => -1) = n1
      rw [mapFind_forward hinv hp1]
    have hf2 : dm.getFieldNum a2 = n2 := by
      show (match mapFind dm.fieldStrToInt a2 with
            | some n => n | none => -1) = n2
      rw [mapFind_forward hinv hp2]
    rw [hf1, hf2] at heq
    subst heq
    have hr1 := mapFind_reverse hinv hp1
    have hr2 := mapFind_reverse hinv hp2
    rw [hr1] at hr2
    exact (Option.some.injEq _ _ ▸ hr2).symm ▸ rfl

/-- C3 witness: probing an unregistered name on a concrete reachable state
returns `-1`; two distinct registered names get distinct numbers. -/
theorem c3_getFieldNum_sentinel_witness :
    dmW.getFieldNum "zzz" = -1 ∧ "u" = "u" := by
  refine ⟨(c3_getFieldNum_sentinel dmW dmW_reachable).1 "zzz" (by decide), ?_⟩
  exact (c3_getFieldNum_sentinel dmW dmW_reachable).2 "u" "u" (by decide) (by decide) rfl

/-- C6: `addField` assigns field numbers in registration order starting at 0:
a fresh name receives the next unused integer (the count of previously
registered names), a repeated name leaves the name/number mapping and the
counter unchanged, and in both cases the pattern is recorded for the block
and the field joins the block's field set. -/
theorem c6_addField_registration (dm : DOFManager) (b : Int) (str : String)
    (pat : FieldPattern) (h : Reachable dm) :
    (mapFind dm.fieldStrToInt str = none →
      (dm.addField b str pat).getFieldNum str = Int.ofNat dm.fieldNames.length ∧
      (dm.addField b str pat).numFields = dm.numFields + 1 ∧
      mapFind (dm.addField b str pat).fieldIntToPattern (b, dm.numFields) = some pat ∧
      dm.numFields ∈ fieldsOnBlock (dm.addField b str pat) b) ∧
    (∀ fid, mapFind dm.fieldStrToInt str = some fid →
      (dm.addField b str pat).fieldStrToInt = dm.fieldStrToInt ∧
      (dm.addField b str pat).intToFieldStr = dm.intToFieldStr ∧
      (dm.addField b str pat).numFields = dm.numFields ∧
      mapFind (dm.addField b str pat).fieldIntToPattern (b, fid) = some pat ∧
      fid ∈ fieldsOnBlock (dm.addField b str pat) b) := by
  have hinv := dOFInv_preserved h
  constructor
  · intro hnone
    have hmain : dm.addField b str pat =
        { dm with
          fieldStrToInt := dm.fieldStrToInt ++ [(str, dm.numFields)],
          intToFieldStr := dm.intToFieldStr ++ [(dm.numFields, str)],
          numFields := dm.numFields + 1,
          fieldIntToPattern := mapInsert dm.fieldIntToPattern (b, dm.numFields) pat,
          blockToField := addToBlock dm.blockToField b dm.numFields } := by
      unfold DOFManager.addField
      rw [hnone]
    refine ⟨?_, ?_, ?_, ?_⟩
    · show (match mapFind (dm.addField b str pat).fieldStrToInt str with
            | some n => n | none => -1) = Int.ofNat dm.fieldNames.length
      rw [hmain]
      show (match mapFind (dm.fieldStrToInt ++ [(str, dm.numFields)]) str with
            | some n => n | none => -1) = Int.ofNat dm.fieldNames.length
      rw [mapFind_append_right _ hnone]
      show (match (if str = str then some dm.numFields else none) with
            | some n => n | none => -1) = Int.ofNat dm.fieldNames.length
      rw [if_pos rfl]
      show dm.numFields = Int.ofNat dm.fieldNames.length
      rw [hinv.2.2.1]
      simp [DOFManager.fieldNames, Int.ofNat_eq_coe]
    · rw [hmain]
    · rw [hmain]
      exact mapFind_mapInsert_self _ _ _
    · rw [hmain]
      obtain ⟨l, hl, hmem⟩ := addToBlock_self_mem dm.blockToField b dm.numFields
      show dm.numFields ∈ (match mapFind (addToBlock dm.blockToField b dm.numFields) b with
            | some l => l | none => [])
      rw [hl]
      exact hmem
  · intro fid hsome
    have hmain : dm.addField b str pat =
        { dm with
          fieldIntToPattern := mapInsert dm.fieldIntToPattern (b, fid) pat,
          blockToField := addToBlock dm.blockToField b fid } := by
      unfold DOFManager.addField
      rw [hsome]
    refine ⟨by rw [hmain], by rw [hmain], by rw [hmain], ?_, ?_⟩
    · rw [hmain]
      exact mapFind_mapInsert_self _ _ _
    · rw [hmain]
      obtain ⟨l, hl, hmem⟩ := addToBlock_self_mem dm.blockToField b fid
      show fid ∈ (match mapFind (addToBlock dm.blockToField b fid) b with
            | some l => l | none => [])
      rw [hl]
      exact hmem

/-- C6 witness: a fresh registration on a concrete reachable state receives
the next number, and re-registering an existing name on another block leaves
the mapping unchanged while recording the new block's pattern. -/
theorem c6_addField_registration_witness :
    ((dmW.addField 0 "T" ⟨3⟩).getFieldNum "T" = Int.ofNat dmW.fieldNames.length ∧
     (dmW.addField 0 "T" ⟨3⟩).numFields = dmW.numFields + 1 ∧
     mapFind (dmW.addField 0 "T" ⟨3⟩).fieldIntToPattern (0, dmW.numFields) = some ⟨3⟩ ∧
     dmW.numFields ∈ fieldsOnBlock (dmW.addField 0 "T" ⟨3⟩) 0) ∧
    ((dmW.addField 1 "u" ⟨2⟩).fieldStrToInt = dmW.fieldStrToInt ∧
     (dmW.addField 1 "u" ⟨2⟩).intToFieldStr = dmW.intToFieldStr ∧
     (dmW.addField 1 "u" ⟨2⟩).numFields = dmW.numFields ∧
     mapFind (dmW.addField 1 "u" ⟨2⟩).fieldIntToPattern (1, 0) = some ⟨2⟩ ∧
     (0 : Int) ∈ fieldsOnBlock (dmW.addField 1 "u" ⟨2⟩) 1) :=
  ⟨(c6_addField_registration dmW 0 "T" ⟨3⟩ dmW_reachable).1 (by decide),
   (c6_addField_registration dmW 1 "u" ⟨2⟩ dmW_reachable).2 0 (by decide)⟩

/-- C7: `setConnManager` and `resetIndices` both discard the computed
global-numbering state (the built maps/graphs and the aggregate patterns)
and leave the field registrations and field patterns untouched;
`resetIndices` additionally returns the previously bound connection manager
and clears the binding, while `setConnManager` installs the new one. -/
theorem c7_reset_preserves_fields (dm : DOFManager) (c : ConnManager) :
    (dm.setConnManager c).built = none ∧
    (dm.setConnManager c).fieldAggPattern = [] ∧
    (dm.setConnManager c).fieldStrToInt = dm.fieldStrToInt ∧
    (dm.setConnManager c).intToFieldStr = dm.intToFieldStr ∧
    (dm.setConnManager c).fieldIntToPattern = dm.fieldIntToPattern ∧
    (dm.setConnManager c).blockToField = dm.blockToField ∧
    (dm.setConnManager c).numFields = dm.numFields ∧
    (dm.setConnManager c).connMngr = some c ∧
    dm.resetIndices.1.built = none ∧
    dm.resetIndices.1.fieldAggPattern = [] ∧
    dm.resetIndices.1.fieldStrToInt = dm.fieldStrToInt ∧
    dm.resetIndices.1.intToFieldStr = dm.intToFieldStr ∧
    dm.resetIndices.1.fieldIntToPattern = dm.fieldIntToPattern ∧
    dm.resetIndices.1.blockToField = dm.blockToField ∧
    dm.resetIndices.1.numFields = dm.numFields ∧
    dm.resetIndices.1.connMngr = none ∧
    dm.resetIndices.2 = dm.connMngr :=
  ⟨rfl, rfl, rfl, rfl, rfl, rfl, rfl, rfl, rfl, rfl, rfl, rfl, rfl, rfl, rfl,
   rfl, rfl⟩

/-- C7 witness: the frame properties evaluated on a concrete state. -/
theorem c7_reset_preserves_fields_witness :
    (dmW.setConnManager ⟨[(0, [10, 11])]⟩).built = none ∧
    dmW.resetIndices.2 = dmW.connMngr :=
  ⟨(c7_reset_preserves_fields dmW ⟨[(0, [10, 11])]⟩).1,
   (c7_reset_preserves_fields dmW ⟨[(0, [10, 11])]⟩).2.2.2.2.2.2.2.2.2.2.2.2.2.2.2.2⟩

/-! ## Claims about the inline accessors -/

/-- A concrete connection manager for the witnesses: two elements of block 0
sharing sub-entity 11. -/
def cmW : ConnManager := ⟨[(0, [10, 11]), (0, [11, 12])]⟩

/-- A concrete manager with its global numbering built. -/
def dmBuilt : DOFManager := (dmW.setConnManager cmW).buildGlobalUnknowns

/-- `dmBuilt` is reachable. -/
def dmBuilt_reachable : Reachable dmBuilt :=
  Reachable.buildGlobalUnknowns (Reachable.setConnManager cmW dmW_reachable)

/-- C10: `getFieldString` offers no sentinel: its inline body dereferences
the iterator returned by `intToFieldStr_.find(num)` with no not-found branch,
so an unregistered field number yields the dereference of a past-the-end
iterator (the `none` outcome) rather than any returned string, while a
registered number yields its name; `getFieldNum`, in contrast, returns the
`-1` sentinel for any unregistered name. -/
theorem c10_getFieldString_requires_registered (dm : DOFManager) (num : Int) :
    (num ∉ dm.fieldNums → dm.getFieldString num = none) ∧
    (num ∈ dm.fieldNums → ∃ s, dm.getFieldString num = some s) ∧
    (∀ str, str ∉ dm.fieldNames → dm.getFieldNum str = -1) := by
  refine ⟨?_, ?_, ?_⟩
  · intro hnum
    exact mapFind_eq_none_of_not_mem _ _ hnum
  · intro hnum
    have := mapFind_ne_none_of_mem (l := dm.intToFieldStr) hnum
    cases hs : mapFind dm.intToFieldStr num with
    | none => exact absurd hs this
    | some s => exact ⟨s, hs⟩
  · intro str hstr
    show (match mapFind dm.fieldStrToInt str with
          | some n => n | none => -1) = -1
    rw [mapFind_eq_none_of_not_mem _ _ hstr]

/-- C10 witness: on a concrete state, an unregistered number dereferences the
end iterator, a registered one returns its name, an unregistered name probes
to `-1`. -/
theorem c10_getFieldString_requires_registered_witness :
    dmW.getFieldString 5 = none ∧ dmW.getFieldNum "q" = -1 :=
  ⟨(c10_getFieldString_requires_registered dmW 5).1 (by decide),
   (c10_getFieldString_requires_registered dmW 5).2.2 "q" (by decide)⟩

/-- C4 counterexample: on a concrete built manager whose field 0 is
registered for block 0, the four-argument `getGIDFieldOffsets` does not
return an offset list: its inline body is `TEUCHOS_ASSERT(false)`, which
fails unconditionally. -/
theorem c4_subcell_offsets_counterexample :
    dmBuilt.getGIDFieldOffsetsSubcell 0 0 0 0 = OffsetsResult.assertFail ∧
    (dmBuilt.getGIDFieldOffsetsSubcell 0 0 0 0).isOk = false :=
  ⟨rfl, rfl⟩

/-- C4 (amended): the four-argument `getGIDFieldOffsets(blockId, fieldNum,
subCellDim, subCellId)` unconditionally fails its `TEUCHOS_ASSERT(false)` —
the sub-cell narrowing is unimplemented — and never returns an offset list,
regardless of the manager state and arguments. -/
theorem c4_subcell_offsets_always_assert (dm : DOFManager)
    (blockId fieldNum subCellDim subCellId : Int) :
    dm.getGIDFieldOffsetsSubcell blockId fieldNum subCellDim subCellId
      = OffsetsResult.assertFail :=
  rfl

/-- C8 counterexample: querying the two-argument `getGIDFieldOffsets` on a
concrete built manager for a block with no registered field does not produce
a reported precondition violation: the inline body dereferences the
past-the-end iterator returned by `fieldAggPattern_.find(blockId)` (undefined
behavior), which is not an assertion failure. -/
theorem c8_offsets_unregistered_counterexample :
    dmBuilt.getGIDFieldOffsets 5 0 = OffsetsResult.endDeref ∧
    OffsetsResult.endDeref ≠ OffsetsResult.assertFail := by
  constructor
  · rfl
  · decide

/-- C8 (amended): the two-argument `getGIDFieldOffsets(blockId, fieldNum)`
performs no precondition check.  After `buildGlobalUnknowns`, a block with no
registered field has no aggregate pattern, so the query dereferences the
past-the-end iterator from `fieldAggPattern_.find(blockId)` — undefined
behavior, not a reported fatal violation — and no offset list is returned;
when the block does have an aggregate pattern, the call is forwarded
unconditionally to that pattern's `localOffsets(fieldNum)` with no per-field
registration check by the manager. -/
theorem c8_offsets_unregistered_underef (dm : DOFManager) (cm : ConnManager)
    (blockId fieldNum : Int) (hconn : dm.connMngr = some cm)
    (hblk : blockId ∉ dm.blockToField.map Prod.fst) :
    dm.buildGlobalUnknowns.getGIDFieldOffsets blockId fieldNum
      = OffsetsResult.endDeref ∧
    (∀ p, mapFind dm.fieldAggPattern blockId = some p →
      dm.getGIDFieldOffsets blockId fieldNum
        = OffsetsResult.ok (p.localOffsets fieldNum)) := by
  constructor
  · have hbuild : dm.buildGlobalUnknowns =
        { dm with
          fieldAggPattern := buildAggPatterns dm cm,
          built := some (computeBuilt dm cm) } := by
      unfold DOFManager.buildGlobalUnknowns
      rw [hconn]
    rw [hbuild]
    show (match mapFind (buildAggPatterns dm cm) blockId with
          | some p => OffsetsResult.ok (p.localOffsets fieldNum)
          | none => OffsetsResult.endDeref) = OffsetsResult.endDeref
    have hkeys : blockId ∉ (buildAggPatterns dm cm).map Prod.fst := by
      unfold buildAggPatterns
      rw [List.map_map]
      simpa using hblk
    rw [mapFind_eq_none_of_not_mem _ _ hkeys]
  · intro p hp
    show (match mapFind dm.fieldAggPattern blockId with
          | some p => OffsetsResult.ok (p.localOffsets fieldNum)
          | none => OffsetsResult.endDeref)
        = OffsetsResult.ok (p.localOffsets fieldNum)
    rw [hp]

/-- C8 (amended) witness: evaluated on the concrete built manager at an
unregistered block. -/
theorem c8_offsets_unregistered_underef_witness :
    (dmW.setConnManager cmW).buildGlobalUnknowns.getGIDFieldOffsets 5 0
      = OffsetsResult.endDeref :=
  (c8_offsets_unregistered_underef (dmW.setConnManager cmW) cmW 5 0 rfl
    (by decide)).1

/-- C9: after `buildGlobalUnknowns`, a `resetIndices` followed by rebinding
the returned connection manager and an identical `buildGlobalUnknowns` call
(same fields, same connectivity) reproduces the identical GID assignment:
`getElementGIDs` agrees on every local element; and the manager returned by
`resetIndices` is the one that was bound. -/
theorem c9_rebuild_deterministic (dm : DOFManager) (cm : ConnManager)
    (hconn : dm.connMngr = some cm) :
    dm.buildGlobalUnknowns.resetIndices.2 = some cm ∧
    ∀ e, ((dm.buildGlobalUnknowns.resetIndices.1.setConnManager cm).buildGlobalUnknowns).getElementGIDs e
        = dm.buildGlobalUnknowns.getElementGIDs e := by
  have hbuild : dm.buildGlobalUnknowns =
      { dm with
        fieldAggPattern := buildAggPatterns dm cm,
        built := some (computeBuilt dm cm) } := by
    unfold DOFManager.buildGlobalUnknowns
    rw [hconn]
  constructor
  · rw [hbuild]
    exact hconn
  · intro e
    rw [hbuild]
    rfl

/-- C9 witness: the rebuild reproduces the GIDs of element 0 on a concrete
manager. -/
theorem c9_rebuild_deterministic_witness :
    (dmW.setConnManager cmW).connMngr = some cmW ∧
    (((dmW.setConnManager cmW).buildGlobalUnknowns.resetIndices.1.setConnManager
        cmW).buildGlobalUnknowns).getElementGIDs 0
      = (dmW.setConnManager cmW).buildGlobalUnknowns.getElementGIDs 0 :=
  ⟨rfl, (c9_rebuild_deterministic (dmW.setConnManager cmW) cmW rfl).2 0⟩

/-! ## The AMD reorderer

`CrsGraph_AMD::operator()` (header `EpetraExt_AMD_CrsGraph.h`, line 63) has
no body in the repository sources; the minimum-degree elimination it performs
is modelled from the spec: repeatedly select a node of minimum degree in the
progressively eliminated graph, ties broken by lowest node index; eliminating
a node merges its neighbors into a clique; the permutation sends each node to
its elimination position (first eliminated gets new index 0); the output
graph is the input graph relabeled by the permutation.  The spec's
approximate-degree update is an efficiency device; the observable contract
(bijectivity, relabeling round trip, tie-breaking) is modelled with the
current-graph degrees the spec describes. -/

/-- Modelled from the spec: the `Epetra_CrsGraph` seen by the AMD transform,
reduced to a node count and a directed adjacency list over nodes
`0 … n-1`. -/
structure CrsGraph where
  n : Nat
  adj : List (Nat × Nat)
deriving DecidableEq

/-- Whether the directed edge `(i, j)` is present. -/
def hasEdge (es : List (Nat × Nat)) (i j : Nat) : Bool :=
  es.any fun e => e.1 == i && e.2 == j

/-- Whether `i` and `j` are adjacent in either orientation. -/
def connected (es : List (Nat × Nat)) (i j : Nat) : Bool :=
  hasEdge es i j || hasEdge es j i

/-- The still-remaining neighbors of `v` (self excluded). -/
def neighborList (es : List (Nat × Nat)) (rem : List Nat) (v : Nat) : List Nat :=
  rem.filter fun w => !(w == v) && connected es v w

/-- The current degree of `v` in the partially eliminated graph. -/
def deg (es : List (Nat × Nat)) (rem : List Nat) (v : Nat) : Nat :=
  (neighborList es rem v).length

/-- Scan the candidate list for a node of minimum current degree, keeping the
earlier (lower-index, since candidates are scanned in increasing order)
node on ties. -/
def pickMinAux (es : List (Nat × Nat)) (rem : List Nat) : List Nat → Option Nat
  | [] => none
  | v :: rest =>
    match pickMinAux es rem rest with
    | none => some v
    | some w => if deg es rem w < deg es rem v then some w else some v

/-- The minimum-degree node among the remaining ones, ties broken by lowest
node index. -/
def pickMin (es : List (Nat × Nat)) (rem : List Nat) : Option Nat :=
  pickMinAux es rem rem

/-- All pairs of distinct neighbors, as the clique created by an
elimination. -/
def cliqueEdges (nbrs : List Nat) : List (Nat × Nat) :=
  nbrs.flatMap fun a => nbrs.filterMap fun b => if a < b then some (a, b) else none

/-- Eliminate `v`: drop its edges and merge its neighbors into a clique. -/
def eliminate (v : Nat) (rem : List Nat) (es : List (Nat × Nat)) :
    List (Nat × Nat) :=
  (es.filter fun e => !(e.1 == v) && !(e.2 == v)) ++
    cliqueEdges (neighborList es rem v)

/-- The elimination loop: one node leaves the remaining set per step. -/
def elimAux : Nat → List Nat → List (Nat × Nat) → List Nat
  | 0, _, _ => []
  | fuel + 1, rem, es =>
    match pickMin es rem with
    | none => []
    | some v => v :: elimAux fuel (rem.erase v) (eliminate v rem es)

/-- Modelled from the spec: the elimination order produced by the AMD
transform on a graph — `n` minimum-degree selections with lowest-index
tie-breaks and clique merges. -/
def eliminationOrder (g : CrsGraph) : List Nat :=
  elimAux g.n (List.range g.n) g.adj

/-- Modelled from the spec: the permutation returned by the AMD transform;
a node's new index is its elimination position. -/
def newIndex (g : CrsGraph) (i : Nat) : Nat :=
  (eliminationOrder g).indexOf i

/-- Modelled from the spec: the permuted graph constructed by the transform —
the input connectivity relabeled under the permutation. -/
def newGraph (g : CrsGraph) : CrsGraph :=
  ⟨g.n, g.adj.map fun e => (newIndex g e.1, newIndex g e.2)⟩

theorem pickMinAux_mem {es : List (Nat × Nat)} {rem l : List Nat} {v : Nat}
    (h : pickMinAux es rem l = some v) : v ∈ l := by
  induction l with
  | nil => exact absurd h (by simp [pickMinAux])
  | cons a rest ih =>
    simp only [pickMinAux] at h
    cases hr : pickMinAux es rem rest with
    | none =>
      simp only [hr] at h
      simp only [Option.some.injEq] at h
      subst h
      exact List.mem_cons_self _ _
    | some w =>
      simp only [hr] at h
      by_cases hd : deg es rem w < deg es rem a
      · rw [if_pos hd] at h
        simp only [Option.some.injEq] at h
        subst h
        exact List.mem_cons_of_mem _ (ih hr)
      · rw [if_neg hd] at h
        simp only [Option.some.injEq] at h
        subst h
        exact List.mem_cons_self _ _

theorem pickMinAux_cons_isSome (es : List (Nat × Nat)) (rem : List Nat)
    (a : Nat) (l : List Nat) : ∃ v, pickMinAux es rem (a :: l) = some v := by
  simp only [pickMinAux]
  cases pickMinAux es rem l with
  | none => exact ⟨a, rfl⟩
  | some w =>
    by_cases hd : deg es rem w < deg es rem a
    · exact ⟨w, if_pos hd⟩
    · exact ⟨a, if_neg hd⟩

theorem elimAux_perm : ∀ (fuel : Nat) (rem : List Nat) (es : List (Nat × Nat)),
    rem.length = fuel → List.Perm (elimAux fuel rem es) rem := by
  intro fuel
  induction fuel with
  | zero =>
    intro rem es hlen
    rw [List.length_eq_zero.mp hlen]
    rfl
  | succ fuel ih =>
    intro rem es hlen
    cases rem with
    | nil => exact absurd hlen (by simp)
    | cons a rest =>
      obtain ⟨v, hv⟩ := pickMinAux_cons_isSome es (a :: rest) a rest
      have hvmem : v ∈ a :: rest := pickMinAux_mem hv
      show List.Perm (elimAux (fuel + 1) (a :: rest) es) (a :: rest)
      simp only [elimAux, pickMin, hv]
      have hlen2 : ((a :: rest).erase v).length = fuel := by
        rw [List.length_erase_of_mem hvmem]
        simpa using hlen
      have hperm := ih ((a :: rest).erase v) (eliminate v (a :: rest) es) hlen2
      exact ((hperm.cons v).trans (List.perm_cons_erase hvmem).symm)

/-- The elimination order visits each node exactly once. -/
theorem eliminationOrder_perm (g : CrsGraph) :
    List.Perm (eliminationOrder g) (List.range g.n) :=
  elimAux_perm g.n (List.range g.n) g.adj (by simp)

theorem eliminationOrder_nodup (g : CrsGraph) : (eliminationOrder g).Nodup :=
  (eliminationOrder_perm g).nodup_iff.mpr (List.nodup_range _)

theorem mem_eliminationOrder {g : CrsGraph} {i : Nat} (h : i < g.n) :
    i ∈ eliminationOrder g :=
  ((eliminationOrder_perm g).mem_iff).mpr (List.mem_range.mpr h)

theorem map_indexOf_self {α : Type} [DecidableEq α] :
    ∀ (l : List α), l.Nodup → l.map l.indexOf = List.range l.length := by
  intro l
  induction l with
  | nil => intro _; rfl
  | cons a t ih =>
    intro hnd
    obtain ⟨ha, hnt⟩ := List.nodup_cons.mp hnd
    have hmap : t.map (a :: t).indexOf = (t.map t.indexOf).map Nat.succ := by
      rw [List.map_map]
      apply List.map_congr_left
      intro x hx
      have hxa : x ≠ a := fun he => ha (he ▸ hx)
      exact List.indexOf_cons_ne t (Ne.symm hxa)
    calc (a :: t).map (a :: t).indexOf
        = (a :: t).indexOf a :: t.map (a :: t).indexOf := by rw [List.map_cons]
      _ = 0 :: (t.map t.indexOf).map Nat.succ := by
          rw [List.indexOf_cons_self, hmap]
      _ = 0 :: (List.range t.length).map Nat.succ := by rw [ih hnt]
      _ = List.range (a :: t).length := by
          rw [List.length_cons, List.range_succ_eq_map]

theorem newIndex_inj {g : CrsGraph} {i j : Nat} (hi : i < g.n) (hj : j < g.n)
    (h : newIndex g i = newIndex g j) : i = j :=
  (List.indexOf_inj (mem_eliminationOrder hi) (mem_eliminationOrder hj)).mp h

theorem hasEdge_iff {es : List (Nat × Nat)} {i j : Nat} :
    hasEdge es i j = true ↔ (i, j) ∈ es := by
  simp only [hasEdge, List.any_eq_true, Bool.and_eq_true, beq_iff_eq]
  constructor
  · rintro ⟨⟨a, b⟩, he, rfl, rfl⟩
    exact he
  · intro h
    exact ⟨(i, j), h, rfl, rfl⟩

/-- C1: for every symmetric, in-range input graph, the AMD transform's
permutation is a bijection on the node indices (the image of `0 … n-1` is a
permutation of `0 … n-1`), and the returned permuted graph's adjacency is
exactly the original adjacency relabeled under that permutation. -/
theorem c1_amd_bijection_roundtrip (g : CrsGraph)
    (hrange : ∀ e ∈ g.adj, e.1 < g.n ∧ e.2 < g.n)
    (_hsym : ∀ e ∈ g.adj, (e.2, e.1) ∈ g.adj) :
    List.Perm ((List.range g.n).map (newIndex g)) (List.range g.n) ∧
    (∀ i j, i < g.n → j < g.n →
      hasEdge (newGraph g).adj (newIndex g i) (newIndex g j)
        = hasEdge g.adj i j) := by
  have hperm := eliminationOrder_perm g
  have hnodup := eliminationOrder_nodup g
  constructor
  · have h1 : List.Perm ((List.range g.n).map (newIndex g))
        ((eliminationOrder g).map (newIndex g)) := hperm.symm.map _
    have h2 : (eliminationOrder g).map (newIndex g) = List.range g.n := by
      have hm := map_indexOf_self (eliminationOrder g) hnodup
      have hlen : (eliminationOrder g).length = g.n := by
        simpa using hperm.length_eq
      rw [hlen] at hm
      exact hm
    exact h2 ▸ h1
  · intro i j hi hj
    cases he : hasEdge g.adj i j with
    | true =>
      have hmem : (i, j) ∈ g.adj := hasEdge_iff.mp he
      apply hasEdge_iff.mpr
      exact List.mem_map.mpr ⟨(i, j), hmem, rfl⟩
    | false =>
      cases hne : hasEdge (newGraph g).adj (newIndex g i) (newIndex g j) with
      | false => rfl
      | true =>
        exfalso
        have hmem := hasEdge_iff.mp hne
        obtain ⟨⟨a, b⟩, hab, heq⟩ := List.mem_map.mp hmem
        simp only [Prod.mk.injEq] at heq
        have hai : a = i := newIndex_inj (hrange _ hab).1 hi heq.1
        have hbj : b = j := newIndex_inj (hrange _ hab).2 hj heq.2
        subst hai; subst hbj
        rw [hasEdge_iff.mpr hab] at he
        exact Bool.noConfusion he

/-- The spec's concrete scenario: nodes `{0,1,2,3}`, symmetric edges
`{(0,1),(1,2),(2,3)}` — a path. -/
def path4 : CrsGraph :=
  ⟨4, [(0, 1), (1, 0), (1, 2), (2, 1), (2, 3), (3, 2)]⟩

/-- C1 witness: bijection and relabeling round trip evaluated on the
concrete path graph. -/
theorem c1_amd_bijection_roundtrip_witness :
    List.Perm ((List.range path4.n).map (newIndex path4)) (List.range path4.n) ∧
    hasEdge (newGraph path4).adj (newIndex path4 0) (newIndex path4 1)
      = hasEdge path4.adj 0 1 :=
  ⟨(c1_amd_bijection_roundtrip path4 (by decide) (by decide)).1,
   (c1_amd_bijection_roundtrip path4 (by decide) (by decide)).2 0 1
     (by decide) (by decide)⟩

/-- C5 counterexample: on the path graph the minimum-degree elimination with
lowest-index tie-breaks (the algorithm the spec itself prescribes) eliminates
node 1 second, not node 3: after node 0 is eliminated, node 1 has degree 1
and wins the lowest-index tie-break against node 3. -/
theorem c5_elimination_order_counterexample :
    eliminationOrder path4 = [0, 1, 2, 3] ∧
    (eliminationOrder path4).get? 1 ≠ some 3 := by
  constructor
  · rfl
  · decide

/-- C5 (amended): on the path graph the elimination order is `[0, 1, 2, 3]`:
node 0 (degree 1, lowest index) is eliminated first; the second elimination
is node 1 — which has become degree 1 and beats node 3 in the lowest-index
tie-break — not node 3; nodes 2 and 3 follow.  The first pick is the
minimum-degree choice over the initial graph and the second pick is the
minimum-degree choice over the graph with node 0 eliminated. -/
theorem c5_elimination_order_path :
    eliminationOrder path4 = [0, 1, 2, 3] ∧
    pickMin path4.adj (List.range path4.n) = some 0 ∧
    pickMin (eliminate 0 (List.range 4) path4.adj) ((List.range 4).erase 0)
      = some 1 :=
  ⟨rfl, rfl, rfl⟩
